import Mathlib

/-!
# Consistency checking of parallel-timing measurements

Verification development for the measurement-consistency checker of the
`mit6_172_lab` repository.  The repository consists of plotting scripts with
hard-coded constants (`generate_contradiction_plot.py`,
`generate_contradiction_plot_karan.py`, `generate_pairwise_plots.py`) and a
Python wrapper (`constraint_checker.py`) that shells out to an external
Common Lisp solver.  The arithmetic core — deriving Work Law, Span Law and
Greedy Scheduler bounds from `(p, t_p)` measurements and deciding whether a
common `(T1, T∞)` exists — lives in that external solver, so it is modelled
here from the specification; the Python wrapper's output-parsing fallback is
embedded directly from the source.

Times are modelled as rationals (the spec says positive reals; every value
the repository manipulates is rational, and the closed-form arithmetic is
exact), processor counts as rationals validated to be integers `≥ 1`,
matching the spec's "positive integer" requirement and its "p non-integer"
error condition.
-/

/-- A timing measurement: observed wall-clock time `t` using `p` processors.
The processor count is carried as a rational so that the spec's
"`p` non-integer" malformed-input condition is expressible. -/
structure Measurement where
  p : ℚ
  t : ℚ
deriving DecidableEq

/-- Modelled from the spec: a measurement is valid when `p` is a positive
integer (`p ≥ 1`, integral) and `t_p` is positive. -/
def validB (m : Measurement) : Bool :=
  m.p.den == 1 && decide (1 ≤ m.p) && decide (0 < m.t)

/-- Work Law bound derived from a measurement: `T1 ≤ p * t_p`. -/
def workBound (m : Measurement) : ℚ := m.p * m.t

/-- Span Law bound derived from a measurement: `T∞ ≤ t_p`. -/
def spanBound (m : Measurement) : ℚ := m.t

/-- Greedy Scheduler lower bound on `T1` at a fixed span value `tinf`:
`T1 ≥ p * t_p - (p - 1) * T∞`. -/
def greedyLower (tinf : ℚ) (m : Measurement) : ℚ :=
  m.p * m.t - (m.p - 1) * tinf

/-- Executable minimum on `ℚ` (kernel-reducible, unlike the lattice `min`). -/
def qmin (a b : ℚ) : ℚ := if a ≤ b then a else b

/-- Executable maximum on `ℚ` (kernel-reducible, unlike the lattice `max`). -/
def qmax (a b : ℚ) : ℚ := if b ≤ a then a else b

/-- Modelled from the spec, step 2: the tightest Span Law bound of the
nonempty measurement list `m :: rest`, i.e. the minimum `t_p`. -/
def tSpan (m : Measurement) (rest : List Measurement) : ℚ :=
  (rest.map spanBound).foldl qmin (spanBound m)

/-- Modelled from the spec, steps 3–4: the global lower bound on `T1`,
the maximum over measurements of the greedy lower bound evaluated at the
tightest span. -/
def gLower (m : Measurement) (rest : List Measurement) : ℚ :=
  (rest.map (greedyLower (tSpan m rest))).foldl qmax (greedyLower (tSpan m rest) m)

/-- Modelled from the spec, step 4: the global upper bound on `T1`, the
minimum over measurements of the Work Law bound. -/
def gUpper (m : Measurement) (rest : List Measurement) : ℚ :=
  (rest.map workBound).foldl qmin (workBound m)

/-- Consistency verdict of a measurement set. -/
inductive Status where
  | consistent
  | inconsistent
deriving DecidableEq

/-- Result of a consistency check: the status together with the global
`T1` bounds.  When consistent, `[lower, upper]` is the feasible interval;
when inconsistent, the bounds form the contradiction
(`lower ≤ T1 ≤ upper` has no solution). -/
structure ConsistencyResult where
  status : Status
  lower : ℚ
  upper : ℚ
deriving DecidableEq

/-- Errors of the checker.  The spec's only error condition on the
measurement values is `InvalidMeasurement`; the empty sequence falls
outside the spec's input domain (size ≥ 1) and is reported separately. -/
inductive CheckError where
  | invalidMeasurement
  | emptyInput
deriving DecidableEq

/-- Modelled from the spec, steps 2–6: check a nonempty measurement list by
comparing the global lower and upper `T1` bounds at the tightest span. -/
def checkCore (m : Measurement) (rest : List Measurement) : ConsistencyResult :=
  if gLower m rest ≤ gUpper m rest then
    ⟨Status.consistent, gLower m rest, gUpper m rest⟩
  else
    ⟨Status.inconsistent, gLower m rest, gUpper m rest⟩

/-- Modelled from the spec: the checker's single logical operation
`check(measurements)`.  Malformed input (some measurement with `p ≤ 0`,
`p` non-integer, or `t_p ≤ 0`) fails with `InvalidMeasurement` and no
partial result; valid nonempty input always yields a `ConsistencyResult`. -/
def check (ms : List Measurement) : Except CheckError ConsistencyResult :=
  match ms with
  | [] => Except.error CheckError.emptyInput
  | m :: rest =>
    if (m :: rest).all validB then Except.ok (checkCore m rest)
    else Except.error CheckError.invalidMeasurement

/-- A `(T1, T∞)` pair satisfies a measurement list when every measurement's
Work Law, Span Law and Greedy Scheduler bounds hold. -/
def Sat (ms : List Measurement) (T1 Tinf : ℚ) : Prop :=
  ∀ m ∈ ms, T1 ≤ workBound m ∧ Tinf ≤ spanBound m ∧ greedyLower Tinf m ≤ T1

/-! ### Order facts about the `qmin`/`qmax` folds -/

theorem qmin_eq_min (a b : ℚ) : qmin a b = min a b := by
  unfold qmin
  by_cases h : a ≤ b
  · rw [if_pos h, min_eq_left h]
  · rw [if_neg h, min_eq_right (le_of_not_le h)]

theorem qmax_eq_max (a b : ℚ) : qmax a b = max a b := by
  unfold qmax
  by_cases h : b ≤ a
  · rw [if_pos h, max_eq_left h]
  · rw [if_neg h, max_eq_right (le_of_not_le h)]

theorem foldl_qmin_le_seed (l : List ℚ) : ∀ a : ℚ, l.foldl qmin a ≤ a := by
  induction l with
  | nil => intro a; exact le_rfl
  | cons x l ih =>
    intro a
    calc (x :: l).foldl qmin a = l.foldl qmin (qmin a x) := rfl
    _ ≤ qmin a x := ih (qmin a x)
    _ ≤ a := by rw [qmin_eq_min]; exact min_le_left a x

theorem foldl_qmin_le_mem (l : List ℚ) :
    ∀ a : ℚ, ∀ x ∈ l, l.foldl qmin a ≤ x := by
  induction l with
  | nil => intro a x hx; exact absurd hx (List.not_mem_nil x)
  | cons y l ih =>
    intro a x hx
    rcases List.mem_cons.mp hx with rfl | hx
    · calc (x :: l).foldl qmin a = l.foldl qmin (qmin a x) := rfl
      _ ≤ qmin a x := foldl_qmin_le_seed l (qmin a x)
      _ ≤ x := by rw [qmin_eq_min]; exact min_le_right a x
    · exact ih (qmin a y) x hx

theorem foldl_qmin_mem_cons (l : List ℚ) :
    ∀ a : ℚ, l.foldl qmin a ∈ a :: l := by
  induction l with
  | nil => intro a; exact List.mem_cons_self a []
  | cons x l ih =>
    intro a
    have h := ih (qmin a x)
    rcases List.mem_cons.mp h with he | hm
    · rw [List.foldl_cons, he, qmin_eq_min]
      rcases min_choice a x with h1 | h1
      · rw [h1]; exact List.mem_cons_self a (x :: l)
      · rw [h1]; exact List.mem_cons_of_mem a (List.mem_cons_self x l)
    · exact List.mem_cons_of_mem a (List.mem_cons_of_mem x hm)

theorem le_foldl_qmin (l : List ℚ) (c : ℚ) :
    ∀ a : ℚ, c ≤ a → (∀ x ∈ l, c ≤ x) → c ≤ l.foldl qmin a := by
  intro a ha hl
  rcases List.mem_cons.mp (foldl_qmin_mem_cons l a) with he | hm
  · rw [he]; exact ha
  · exact hl _ hm

theorem le_foldl_qmax_seed (l : List ℚ) : ∀ a : ℚ, a ≤ l.foldl qmax a := by
  induction l with
  | nil => intro a; exact le_rfl
  | cons x l ih =>
    intro a
    calc a ≤ qmax a x := by rw [qmax_eq_max]; exact le_max_left a x
    _ ≤ l.foldl qmax (qmax a x) := ih (qmax a x)
    _ = (x :: l).foldl qmax a := rfl

theorem le_foldl_qmax_mem (l : List ℚ) :
    ∀ a : ℚ, ∀ x ∈ l, x ≤ l.foldl qmax a := by
  induction l with
  | nil => intro a x hx; exact absurd hx (List.not_mem_nil x)
  | cons y l ih =>
    intro a x hx
    rcases List.mem_cons.mp hx with rfl | hx
    · calc x ≤ qmax a x := by rw [qmax_eq_max]; exact le_max_right a x
      _ ≤ l.foldl qmax (qmax a x) := le_foldl_qmax_seed l (qmax a x)
      _ = (x :: l).foldl qmax a := rfl
    · exact ih (qmax a y) x hx

theorem foldl_qmax_mem_cons (l : List ℚ) :
    ∀ a : ℚ, l.foldl qmax a ∈ a :: l := by
  induction l with
  | nil => intro a; exact List.mem_cons_self a []
  | cons x l ih =>
    intro a
    have h := ih (qmax a x)
    rcases List.mem_cons.mp h with he | hm
    · rw [List.foldl_cons, he, qmax_eq_max]
      rcases max_choice a x with h1 | h1
      · rw [h1]; exact List.mem_cons_self a (x :: l)
      · rw [h1]; exact List.mem_cons_of_mem a (List.mem_cons_self x l)
    · exact List.mem_cons_of_mem a (List.mem_cons_of_mem x hm)

theorem foldl_qmax_le (l : List ℚ) (c : ℚ) :
    ∀ a : ℚ, a ≤ c → (∀ x ∈ l, x ≤ c) → l.foldl qmax a ≤ c := by
  intro a ha hl
  rcases List.mem_cons.mp (foldl_qmax_mem_cons l a) with he | hm
  · rw [he]; exact ha
  · exact hl _ hm

/-! ### Validity bridge -/

theorem validB_p {m : Measurement} (h : validB m = true) : 1 ≤ m.p := by
  simp only [validB, Bool.and_eq_true, decide_eq_true_eq] at h
  exact h.1.2

theorem validB_t {m : Measurement} (h : validB m = true) : 0 < m.t := by
  simp only [validB, Bool.and_eq_true, decide_eq_true_eq] at h
  exact h.2

theorem all_validB_p {ms : List Measurement} (h : ms.all validB = true) :
    ∀ x ∈ ms, 1 ≤ x.p := by
  rw [List.all_eq_true] at h
  exact fun x hx => validB_p (h x hx)

/-! ### Feasibility is equivalent to the interval test at the tightest span -/

theorem sat_iff_interval (m : Measurement) (rest : List Measurement)
    (hp : ∀ x ∈ m :: rest, 1 ≤ x.p) :
    (∃ T1 Tinf : ℚ, Sat (m :: rest) T1 Tinf) ↔ gLower m rest ≤ gUpper m rest := by
  constructor
  · rintro ⟨T1, Tinf, hSat⟩
    have hts : Tinf ≤ tSpan m rest := by
      apply le_foldl_qmin
      · exact (hSat m (List.mem_cons_self m rest)).2.1
      · intro y hy
        obtain ⟨x, hx, rfl⟩ := List.mem_map.mp hy
        exact (hSat x (List.mem_cons_of_mem m hx)).2.1
    have hkey : ∀ x ∈ m :: rest, greedyLower (tSpan m rest) x ≤ T1 := by
      intro x hx
      have h1x : 1 ≤ x.p := hp x hx
      have hg : greedyLower Tinf x ≤ T1 := (hSat x hx).2.2
      have hmono : (x.p - 1) * Tinf ≤ (x.p - 1) * tSpan m rest :=
        mul_le_mul_of_nonneg_left hts (by linarith)
      unfold greedyLower at hg ⊢
      linarith
    have hgl : gLower m rest ≤ T1 := by
      unfold gLower
      apply foldl_qmax_le
      · exact hkey m (List.mem_cons_self m rest)
      · intro y hy
        obtain ⟨x, hx, rfl⟩ := List.mem_map.mp hy
        exact hkey x (List.mem_cons_of_mem m hx)
    have hgu : T1 ≤ gUpper m rest := by
      unfold gUpper
      apply le_foldl_qmin
      · exact (hSat m (List.mem_cons_self m rest)).1
      · intro y hy
        obtain ⟨x, hx, rfl⟩ := List.mem_map.mp hy
        exact (hSat x (List.mem_cons_of_mem m hx)).1
    linarith
  · intro h
    refine ⟨gLower m rest, tSpan m rest, ?_⟩
    intro x hx
    refine ⟨?_, ?_, ?_⟩
    · have hx2 : gUpper m rest ≤ workBound x := by
        unfold gUpper
        rcases List.mem_cons.mp hx with rfl | hx1
        · exact foldl_qmin_le_seed _ _
        · exact foldl_qmin_le_mem _ _ _ (List.mem_map.mpr ⟨x, hx1, rfl⟩)
      linarith
    · unfold tSpan
      rcases List.mem_cons.mp hx with rfl | hx1
      · exact foldl_qmin_le_seed _ _
      · exact foldl_qmin_le_mem _ _ _ (List.mem_map.mpr ⟨x, hx1, rfl⟩)
    · unfold gLower
      rcases List.mem_cons.mp hx with rfl | hx1
      · exact le_foldl_qmax_seed _ _
      · exact le_foldl_qmax_mem _ _ _ (List.mem_map.mpr ⟨x, hx1, rfl⟩)

theorem checkCore_status_iff (m : Measurement) (rest : List Measurement) :
    (checkCore m rest).status = Status.consistent ↔ gLower m rest ≤ gUpper m rest := by
  unfold checkCore
  split
  · simp_all
  · simp_all

/-! ### Permutation invariance -/

theorem foldl_qmin_eq_of_perm (a1 a2 : ℚ) (l1 l2 : List ℚ)
    (h : (a1 :: l1).Perm (a2 :: l2)) :
    l1.foldl qmin a1 = l2.foldl qmin a2 := by
  have mem1 := foldl_qmin_mem_cons l1 a1
  have mem2 := foldl_qmin_mem_cons l2 a2
  have le1 : ∀ x ∈ a1 :: l1, l1.foldl qmin a1 ≤ x := by
    intro x hx
    rcases List.mem_cons.mp hx with he | hx
    · rw [he]; exact foldl_qmin_le_seed l1 a1
    · exact foldl_qmin_le_mem l1 a1 x hx
  have le2 : ∀ x ∈ a2 :: l2, l2.foldl qmin a2 ≤ x := by
    intro x hx
    rcases List.mem_cons.mp hx with he | hx
    · rw [he]; exact foldl_qmin_le_seed l2 a2
    · exact foldl_qmin_le_mem l2 a2 x hx
  exact le_antisymm (le1 _ (h.mem_iff.mpr mem2)) (le2 _ (h.mem_iff.mp mem1))

theorem foldl_qmax_eq_of_perm (a1 a2 : ℚ) (l1 l2 : List ℚ)
    (h : (a1 :: l1).Perm (a2 :: l2)) :
    l1.foldl qmax a1 = l2.foldl qmax a2 := by
  have mem1 := foldl_qmax_mem_cons l1 a1
  have mem2 := foldl_qmax_mem_cons l2 a2
  have le1 : ∀ x ∈ a1 :: l1, x ≤ l1.foldl qmax a1 := by
    intro x hx
    rcases List.mem_cons.mp hx with he | hx
    · rw [he]; exact le_foldl_qmax_seed l1 a1
    · exact le_foldl_qmax_mem l1 a1 x hx
  have le2 : ∀ x ∈ a2 :: l2, x ≤ l2.foldl qmax a2 := by
    intro x hx
    rcases List.mem_cons.mp hx with he | hx
    · rw [he]; exact le_foldl_qmax_seed l2 a2
    · exact le_foldl_qmax_mem l2 a2 x hx
  exact le_antisymm (le2 _ (h.mem_iff.mp mem1)) (le1 _ (h.mem_iff.mpr mem2))

theorem tSpan_perm {m1 m2 : Measurement} {rest1 rest2 : List Measurement}
    (h : (m1 :: rest1).Perm (m2 :: rest2)) :
    tSpan m1 rest1 = tSpan m2 rest2 := by
  have hmap := h.map spanBound
  rw [List.map_cons, List.map_cons] at hmap
  exact foldl_qmin_eq_of_perm _ _ _ _ hmap

theorem gUpper_perm {m1 m2 : Measurement} {rest1 rest2 : List Measurement}
    (h : (m1 :: rest1).Perm (m2 :: rest2)) :
    gUpper m1 rest1 = gUpper m2 rest2 := by
  have hmap := h.map workBound
  rw [List.map_cons, List.map_cons] at hmap
  exact foldl_qmin_eq_of_perm _ _ _ _ hmap

theorem gLower_perm {m1 m2 : Measurement} {rest1 rest2 : List Measurement}
    (h : (m1 :: rest1).Perm (m2 :: rest2)) :
    gLower m1 rest1 = gLower m2 rest2 := by
  have hts := tSpan_perm h
  have hmap := h.map (greedyLower (tSpan m1 rest1))
  rw [List.map_cons, List.map_cons] at hmap
  unfold gLower
  rw [← hts]
  exact foldl_qmax_eq_of_perm _ _ _ _ hmap

theorem checkCore_perm {m1 m2 : Measurement} {rest1 rest2 : List Measurement}
    (h : (m1 :: rest1).Perm (m2 :: rest2)) :
    checkCore m1 rest1 = checkCore m2 rest2 := by
  have hl := gLower_perm h
  have hu := gUpper_perm h
  unfold checkCore
  rw [hl, hu]

theorem all_validB_perm {ms1 ms2 : List Measurement} (h : ms1.Perm ms2) :
    ms1.all validB = ms2.all validB := by
  by_cases hb : ms2.all validB = true
  · rw [hb, List.all_eq_true]
    rw [List.all_eq_true] at hb
    exact fun x hx => hb x (h.mem_iff.mp hx)
  · have hb1 : ¬ ms1.all validB = true := by
      intro h1
      rw [List.all_eq_true] at h1
      exact hb (List.all_eq_true.mpr fun x hx => h1 x (h.mem_iff.mpr hx))
    rw [Bool.not_eq_true] at hb hb1
    rw [hb, hb1]

/-! ### Claims -/

/-- **C1.** For a nonempty sequence of valid measurements, some pair
`(T1, T∞)` satisfies, for every measurement, the Work Law `T1 ≤ p*t_p`, the
Span Law `T∞ ≤ t_p` and the greedy bound `T1 ≥ p*t_p - (p-1)*T∞`, if and
only if the `T1` interval `[gLower, gUpper]` computed at the tightest span
`T∞* = min t_p` is non-empty — and that interval test is exactly what the
checker decides, so checking consistency only at the tightest span bound is
equivalent to full feasibility. -/
theorem full_feasibility_iff_tightest_span (m : Measurement) (rest : List Measurement)
    (hv : (m :: rest).all validB = true) :
    ((∃ T1 Tinf : ℚ, Sat (m :: rest) T1 Tinf) ↔ gLower m rest ≤ gUpper m rest)
    ∧ ((checkCore m rest).status = Status.consistent ↔ gLower m rest ≤ gUpper m rest) :=
  ⟨sat_iff_interval m rest (all_validB_p hv), checkCore_status_iff m rest⟩

/-- Witness for C1 at the single valid measurement `(1, 1)`. -/
theorem full_feasibility_iff_tightest_span_witness :
    ([(⟨1,1⟩ : Measurement)].all validB = true)
    ∧ (((∃ T1 Tinf : ℚ, Sat [(⟨1,1⟩ : Measurement)] T1 Tinf) ↔
          gLower ⟨1,1⟩ [] ≤ gUpper ⟨1,1⟩ [])
       ∧ ((checkCore ⟨1,1⟩ []).status = Status.consistent ↔
          gLower ⟨1,1⟩ [] ≤ gUpper ⟨1,1⟩ [])) :=
  ⟨by decide, full_feasibility_iff_tightest_span ⟨1,1⟩ [] (by decide)⟩

/-- **C2.** On `(4,80), (10,42), (64,9)` the check reports `inconsistent`
with global lower bound `339` — the greedy lower bound of `(10,42)` at the
tightest span `9` contributed by `(64,9)` — and global upper bound `320` —
the Work Law bound of `(4,80)` — and `320 < 339`, so no `T1` satisfies
`339 ≤ T1 ≤ 320`. -/
theorem check_c2_contradiction_example :
    check [⟨4,80⟩, ⟨10,42⟩, ⟨64,9⟩] = Except.ok ⟨Status.inconsistent, 339, 320⟩
    ∧ tSpan ⟨4,80⟩ [⟨10,42⟩, ⟨64,9⟩] = spanBound ⟨64,9⟩
    ∧ gLower ⟨4,80⟩ [⟨10,42⟩, ⟨64,9⟩] = greedyLower 9 ⟨10,42⟩
    ∧ gUpper ⟨4,80⟩ [⟨10,42⟩, ⟨64,9⟩] = workBound ⟨4,80⟩
    ∧ (320 : ℚ) < 339 := by
  refine ⟨?_, ?_, ?_, ?_, by norm_num⟩ <;>
    norm_num [check, checkCore, gLower, gUpper, tSpan, qmin, qmax, greedyLower,
      workBound, spanBound, validB]

/-- **C3.** The check fails with `InvalidMeasurement` exactly when some
input measurement is malformed (`p ≤ 0`, `p` non-integer, or `t_p ≤ 0`),
and on every valid nonempty input it succeeds with a result — an
inconsistent set is a normal result, never an error. -/
theorem check_error_conditions (ms : List Measurement) :
    (check ms = Except.error CheckError.invalidMeasurement ↔
      ∃ x ∈ ms, validB x = false)
    ∧ (ms ≠ [] → ms.all validB = true → ∃ r, check ms = Except.ok r) := by
  cases ms with
  | nil => simp [check]
  | cons m rest =>
    constructor
    · by_cases hall : (m :: rest).all validB = true
      · rw [show check (m :: rest) = Except.ok (checkCore m rest) from by
          simp [check, hall]]
        refine ⟨fun h => absurd h (by simp), ?_⟩
        rintro ⟨x, hx, hfx⟩
        rw [List.all_eq_true] at hall
        rw [hall x hx] at hfx
        exact Bool.noConfusion hfx
      · rw [show check (m :: rest) = Except.error CheckError.invalidMeasurement from by
          simp [check, hall]]
        refine ⟨fun _ => ?_, fun _ => rfl⟩
        by_contra hno
        push_neg at hno
        apply hall
        rw [List.all_eq_true]
        intro x hx
        cases hvx : validB x with
        | false => exact absurd hvx (hno x hx)
        | true => rfl
    · intro _ hall
      exact ⟨checkCore m rest, by simp [check, hall]⟩

/-- Witness for C3 at the valid singleton input `(4, 80)`. -/
theorem check_error_conditions_witness :
    ([(⟨4,80⟩ : Measurement)] ≠ [] ∧ [(⟨4,80⟩ : Measurement)].all validB = true)
    ∧ (∃ r, check [(⟨4,80⟩ : Measurement)] = Except.ok r) :=
  ⟨⟨by decide, by decide⟩,
   (check_error_conditions [⟨4,80⟩]).2 (by decide) (by decide)⟩

/-- **C4.** If the check on a full valid measurement set returns
`consistent`, then every pair of its measurements is pairwise compatible
(the pair's own interval at its own tightest span is non-empty); and on the
inconsistent set `(4,80), (10,42), (64,9)` every pair is nonetheless
compatible, so pairwise compatibility does not imply full-set
consistency. -/
theorem consistent_implies_pairwise_compatible :
    (∀ (m : Measurement) (rest : List Measurement),
      (m :: rest).all validB = true →
      (checkCore m rest).status = Status.consistent →
      ∀ m1 ∈ m :: rest, ∀ m2 ∈ m :: rest,
        (checkCore m1 [m2]).status = Status.consistent)
    ∧ (checkCore ⟨4,80⟩ [⟨10,42⟩, ⟨64,9⟩]).status = Status.inconsistent
    ∧ (∀ m1 ∈ [(⟨4,80⟩ : Measurement), ⟨10,42⟩, ⟨64,9⟩],
        ∀ m2 ∈ [(⟨4,80⟩ : Measurement), ⟨10,42⟩, ⟨64,9⟩],
          (checkCore m1 [m2]).status = Status.consistent) := by
  refine ⟨?_, ?_, ?_⟩
  · intro m rest hv hst m1 hm1 m2 hm2
    have hp := all_validB_p hv
    have hfull := (checkCore_status_iff m rest).mp hst
    obtain ⟨T1, Tinf, hSat⟩ := (sat_iff_interval m rest hp).mpr hfull
    have hpp : ∀ x ∈ m1 :: [m2], 1 ≤ x.p := by
      intro x hx
      rcases List.mem_cons.mp hx with rfl | hx
      · exact hp _ hm1
      · rw [List.mem_singleton] at hx
        subst hx
        exact hp _ hm2
    have hsat2 : Sat (m1 :: [m2]) T1 Tinf := by
      intro x hx
      rcases List.mem_cons.mp hx with rfl | hx
      · exact hSat _ hm1
      · rw [List.mem_singleton] at hx
        subst hx
        exact hSat _ hm2
    exact (checkCore_status_iff m1 [m2]).mpr
      ((sat_iff_interval m1 [m2] hpp).mp ⟨T1, Tinf, hsat2⟩)
  · norm_num [checkCore, gLower, gUpper, tSpan, qmin, qmax, greedyLower,
      workBound, spanBound]
  · intro m1 hm1 m2 hm2
    fin_cases hm1 <;> fin_cases hm2 <;>
      norm_num [checkCore, gLower, gUpper, tSpan, qmin, qmax, greedyLower,
        workBound, spanBound]

/-- Witness for C4: the consistent pair `(4,80), (10,42)` has every pair
(in particular the one formed from its two members) compatible. -/
theorem consistent_implies_pairwise_compatible_witness :
    (((⟨4,80⟩ : Measurement) :: [⟨10,42⟩]).all validB = true
      ∧ (checkCore ⟨4,80⟩ [⟨10,42⟩]).status = Status.consistent)
    ∧ (checkCore ⟨4,80⟩ [⟨10,42⟩]).status = Status.consistent :=
  ⟨⟨by decide, by
      norm_num [checkCore, gLower, gUpper, tSpan, qmin, qmax, greedyLower,
        workBound, spanBound]⟩,
   consistent_implies_pairwise_compatible.1 ⟨4,80⟩ [⟨10,42⟩] (by decide)
     (by norm_num [checkCore, gLower, gUpper, tSpan, qmin, qmax, greedyLower,
        workBound, spanBound])
     ⟨4,80⟩ (List.mem_cons_self _ _)
     ⟨10,42⟩ (List.mem_cons_of_mem _ (List.mem_cons_self _ _))⟩

/-- **C5.** Permuting the input measurement sequence changes nothing in the
checker's output: status, contradiction bounds and feasible interval are
identical (the result carries no attribution, so it is equal outright). -/
theorem check_order_invariant (ms1 ms2 : List Measurement) (h : ms1.Perm ms2) :
    check ms1 = check ms2 := by
  cases ms1 with
  | nil =>
    have h2 : ms2 = [] := (List.perm_nil.mp h.symm)
    rw [h2]
  | cons m1 rest1 =>
    cases ms2 with
    | nil => exact absurd (List.perm_nil.mp h) (by simp)
    | cons m2 rest2 =>
      have hall := all_validB_perm h
      have hcore := checkCore_perm h
      simp only [check]
      rw [hall, hcore]

/-- Witness for C5: swapping the two measurements of a concrete input. -/
theorem check_order_invariant_witness :
    check [(⟨4,80⟩ : Measurement), ⟨10,42⟩] = check [(⟨10,42⟩ : Measurement), ⟨4,80⟩] :=
  check_order_invariant _ _ (List.Perm.swap (⟨10,42⟩ : Measurement) ⟨4,80⟩ [])

/-- **C6.** On the two-element input `(4,80), (10,42)` the check reports
`consistent` with feasible interval `[194, 320]`, computed at the pair's
tightest span bound `T∞ = 42`. -/
theorem check_c6_pair_consistent_example :
    check [⟨4,80⟩, ⟨10,42⟩] = Except.ok ⟨Status.consistent, 194, 320⟩
    ∧ tSpan ⟨4,80⟩ [⟨10,42⟩] = 42 := by
  constructor <;>
    norm_num [check, checkCore, gLower, gUpper, tSpan, qmin, qmax, greedyLower,
      workBound, spanBound, validB]

/-- **C7.** On `(4,80), (10,42), (64,10)` the check reports `inconsistent`
with global lower bound `330` and global upper bound `320`. -/
theorem check_c7_contradiction_example :
    check [⟨4,80⟩, ⟨10,42⟩, ⟨64,10⟩] = Except.ok ⟨Status.inconsistent, 330, 320⟩
    ∧ (320 : ℚ) < 330 := by
  constructor
  · norm_num [check, checkCore, gLower, gUpper, tSpan, qmin, qmax, greedyLower,
      workBound, spanBound, validB]
  · norm_num

/-- **C8.** Every single valid measurement checks as `consistent`: at
`T∞ = t_p` its greedy lower bound collapses to `t_p`, which never exceeds
its Work Law bound `p * t_p`. -/
theorem single_measurement_consistent (m : Measurement) (hv : validB m = true) :
    check [m] = Except.ok ⟨Status.consistent, m.t, m.p * m.t⟩ := by
  have hp := validB_p hv
  have ht := validB_t hv
  have hgl : gLower m [] = m.t := by
    unfold gLower tSpan
    simp only [List.map_nil, List.foldl_nil]
    unfold greedyLower spanBound
    ring
  have hgu : gUpper m [] = m.p * m.t := by
    unfold gUpper
    simp only [List.map_nil, List.foldl_nil]
    rfl
  have hle : gLower m [] ≤ gUpper m [] := by
    rw [hgl, hgu]
    have h2 : 1 * m.t ≤ m.p * m.t := mul_le_mul_of_nonneg_right hp ht.le
    rw [one_mul] at h2
    exact h2
  have hcore : checkCore m [] = ⟨Status.consistent, m.t, m.p * m.t⟩ := by
    unfold checkCore
    rw [if_pos hle, hgl, hgu]
  simp [check, hv, hcore]

/-- Witness for C8 at the valid measurement `(3, 5)`. -/
theorem single_measurement_consistent_witness :
    validB ⟨3,5⟩ = true
    ∧ check [(⟨3,5⟩ : Measurement)] = Except.ok ⟨Status.consistent, 5, 15⟩ :=
  ⟨by decide, by
    rw [single_measurement_consistent ⟨3,5⟩ (by decide)]
    norm_num⟩

/-- **C9.** The check is deterministic: it is a pure function of its input,
so two invocations on identical input yield identical output. -/
theorem check_deterministic (ms1 ms2 : List Measurement) (h : ms1 = ms2) :
    check ms1 = check ms2 := by
  rw [h]

/-- Witness for C9 at a concrete input. -/
theorem check_deterministic_witness :
    ([(⟨4,80⟩ : Measurement)] = [(⟨4,80⟩ : Measurement)])
    ∧ check [(⟨4,80⟩ : Measurement)] = check [(⟨4,80⟩ : Measurement)] :=
  ⟨rfl, check_deterministic _ _ rfl⟩

/-! ### The Python wrapper's output parsing (`constraint_checker.py`) -/

/-- Result dictionary shape of the Python wrapper:
`{'status': ..., 'contradiction': ...}`. -/
structure PyResult where
  status : List Char
  contradiction : Option (List Char)
deriving DecidableEq

/-- Python's `pat in hay`: whether `pat` occurs as a contiguous substring
of `hay`. -/
def strContains : List Char → List Char → Bool
  | [], pat => pat.isEmpty
  | h :: t, pat => pat.isPrefixOf (h :: t) || strContains t pat

/-- Python's `hay.find(pat)`: index of the first occurrence of `pat` in
`hay`, with `none` standing for `-1`. -/
def strFind : List Char → List Char → Option Nat
  | [], pat => if pat.isEmpty then some 0 else none
  | h :: t, pat =>
    if pat.isPrefixOf (h :: t) then some 0
    else (strFind t pat).map (fun n => n + 1)

/-- Python's `s.split(sep)` with an explicit one-character separator:
every occurrence splits, empty fields are kept, `''` yields `['']`. -/
def pySplit (sep : Char) : List Char → List (List Char)
  | [] => [[]]
  | c :: cs =>
    if c = sep then [] :: pySplit sep cs
    else
      match pySplit sep cs with
      | [] => [[c]]
      | f :: rest => (c :: f) :: rest

/-- Python's `s.split(sep, 1)`: split at the first occurrence only. -/
def pySplitOnce (sep : Char) : List Char → List (List Char)
  | [] => [[]]
  | c :: cs =>
    if c = sep then [[], cs]
    else
      match pySplitOnce sep cs with
      | [] => [[c]]
      | f :: rest => (c :: f) :: rest

/-- Python's `s.strip()`: remove leading and trailing whitespace. -/
def pyStrip (s : List Char) : List Char :=
  ((s.dropWhile Char.isWhitespace).reverse.dropWhile Char.isWhitespace).reverse

/-- Python's `s.lower()`. -/
def pyLower (s : List Char) : List Char := s.map Char.toLower

/-- The substring `'Overall Status:'` scanned for by the fallback parser. -/
def overallStatusPat : List Char := "Overall Status:".toList

/-- The substring `'Contradiction:'` scanned for by the fallback parser. -/
def contradictionPat : List Char := "Contradiction:".toList

/-- The initial status value `'unknown'` of the fallback parser. -/
def unknownStatus : List Char := "unknown".toList

/-- The loop of `ConstraintChecker._parse_readable_output`: a line
containing `'Overall Status:'` replaces the status with
`line.split(':')[1].strip().lower()`; otherwise a line containing
`'Contradiction:'` replaces the contradiction with
`line.split(':', 1)[1].strip()`. -/
def parseReadableLoop :
    List (List Char) → List Char → Option (List Char) → PyResult
  | [], st, contra => ⟨st, contra⟩
  | line :: rest, st, contra =>
    if strContains line overallStatusPat then
      parseReadableLoop rest
        (pyLower (pyStrip ((pySplit ':' line).getD 1 []))) contra
    else if strContains line contradictionPat then
      parseReadableLoop rest st (some (pyStrip ((pySplitOnce ':' line).getD 1 [])))
    else
      parseReadableLoop rest st contra

/-- `ConstraintChecker._parse_readable_output`: fallback parse of the
human-readable solver output, starting from status `'unknown'` and no
contradiction. -/
def parseReadableOutput (output : List Char) : PyResult :=
  parseReadableLoop (pySplit '\n' output) unknownStatus none

/-- First JSON search pattern `'\n{\n  "status"'` (braces written as
hex escapes). -/
def jsonPat1 : List Char := "\n\x7b\n  \"status\"".toList

/-- Second JSON search pattern `'{\n  "status"'`. -/
def jsonPat2 : List Char := "\x7b\n  \"status\"".toList

/-- Third JSON search pattern `'{"status"'`. -/
def jsonPat3 : List Char := "\x7b\"status\"".toList

/-- The JSON-start search of `ConstraintChecker._call_lisp_solver`:
`output.find` of the three patterns in order, `none` when all fail. -/
def findJsonStart (output : List Char) : Option Nat :=
  match strFind output jsonPat1 with
  | some i => some i
  | none =>
    match strFind output jsonPat2 with
    | some i => some i
    | none => strFind output jsonPat3

/-- The output-parsing stage of `ConstraintChecker._call_lisp_solver`:
locate a JSON object by the three patterns; when found, extract and decode
it — the brace-matching extraction plus Python's standard-library
`json.loads` are abstracted as the `jsonBranch` parameter, `none` meaning
the decode failed; on decode failure, or when no pattern matches, fall back
to `_parse_readable_output`. -/
def callLispSolverParse (jsonBranch : List Char → Nat → Option PyResult)
    (output : List Char) : PyResult :=
  match findJsonStart output with
  | some i =>
    match jsonBranch output i with
    | some r => r
    | none => parseReadableOutput output
  | none => parseReadableOutput output

theorem parseReadableLoop_status (lines : List (List Char)) :
    ∀ (st : List Char) (contra : Option (List Char)),
    (∀ l ∈ lines, strContains l overallStatusPat = false) →
    (parseReadableLoop lines st contra).status = st := by
  induction lines with
  | nil => intro st contra _; rfl
  | cons line rest ih =>
    intro st contra h
    have hline := h line (List.mem_cons_self _ _)
    have hrest := fun l hl => h l (List.mem_cons_of_mem _ hl)
    simp only [parseReadableLoop, hline, Bool.false_eq_true, if_false]
    split
    · exact ih st _ hrest
    · exact ih st contra hrest

theorem parseReadableLoop_const (lines : List (List Char)) :
    ∀ (st : List Char) (contra : Option (List Char)),
    (∀ l ∈ lines, strContains l overallStatusPat = false) →
    (∀ l ∈ lines, strContains l contradictionPat = false) →
    parseReadableLoop lines st contra = ⟨st, contra⟩ := by
  induction lines with
  | nil => intro st contra _ _; rfl
  | cons line rest ih =>
    intro st contra hS hC
    have hlS := hS line (List.mem_cons_self _ _)
    have hlC := hC line (List.mem_cons_self _ _)
    simp only [parseReadableLoop, hlS, hlC, Bool.false_eq_true, if_false]
    exact ih st contra (fun l hl => hS l (List.mem_cons_of_mem _ hl))
      (fun l hl => hC l (List.mem_cons_of_mem _ hl))

/-- A solver stdout with no JSON object and no `'Overall Status:'` line,
but with a `'Contradiction:'` line. -/
def c10Out : List Char := "Contradiction: 339 <= T1 <= 320".toList

/-- A solver stdout with no JSON object, no `'Overall Status:'` line and no
`'Contradiction:'` line. -/
def c10Plain : List Char := "hello".toList

/-- **C10, counterexample.** A stdout with no JSON pattern and no
`'Overall Status:'` line on which the parse result is *not*
`{'status': 'unknown', 'contradiction': None}`: a bare `'Contradiction:'`
line still populates the contradiction field. -/
theorem callLispSolverParse_unknown_counterexample :
    findJsonStart c10Out = none
    ∧ (pySplit '\n' c10Out).all (fun l => ! strContains l overallStatusPat) = true
    ∧ callLispSolverParse (fun _ _ => none) c10Out =
        ⟨unknownStatus, some "339 <= T1 <= 320".toList⟩
    ∧ decide (callLispSolverParse (fun _ _ => none) c10Out =
        PyResult.mk unknownStatus none) = false := by decide

/-- **C10, amended.** When the solver's stdout contains none of the three
JSON patterns and no line contains `'Overall Status:'`, the wrapper falls
back to the readable parser and returns a result — never an error — whose
status is `'unknown'`, outside the consistent/inconsistent enumeration;
the contradiction field is `None` provided additionally no line contains
`'Contradiction:'`. -/
theorem callLispSolverParse_unknown_fallback (output : List Char)
    (jsonBranch : List Char → Nat → Option PyResult)
    (h1 : findJsonStart output = none)
    (h2 : (pySplit '\n' output).all (fun l => ! strContains l overallStatusPat) = true) :
    (callLispSolverParse jsonBranch output).status = unknownStatus
    ∧ ((pySplit '\n' output).all (fun l => ! strContains l contradictionPat) = true →
        callLispSolverParse jsonBranch output = ⟨unknownStatus, none⟩) := by
  have h2' : ∀ l ∈ pySplit '\n' output, strContains l overallStatusPat = false := by
    rw [List.all_eq_true] at h2
    intro l hl
    have := h2 l hl
    simpa using this
  have hcall : callLispSolverParse jsonBranch output =
      parseReadableLoop (pySplit '\n' output) unknownStatus none := by
    unfold callLispSolverParse
    rw [h1]
    rfl
  constructor
  · rw [hcall]
    exact parseReadableLoop_status _ _ _ h2'
  · intro h3
    have h3' : ∀ l ∈ pySplit '\n' output, strContains l contradictionPat = false := by
      rw [List.all_eq_true] at h3
      intro l hl
      have := h3 l hl
      simpa using this
    rw [hcall]
    exact parseReadableLoop_const _ _ _ h2' h3'

/-- Witness for the amended C10 on a concrete pattern-free stdout. -/
theorem callLispSolverParse_unknown_fallback_witness :
    (findJsonStart c10Plain = none
     ∧ (pySplit '\n' c10Plain).all (fun l => ! strContains l overallStatusPat) = true)
    ∧ ((callLispSolverParse (fun _ _ => none) c10Plain).status = unknownStatus
       ∧ ((pySplit '\n' c10Plain).all (fun l => ! strContains l contradictionPat) = true →
           callLispSolverParse (fun _ _ => none) c10Plain = ⟨unknownStatus, none⟩)) :=
  ⟨⟨by decide, by decide⟩,
   callLispSolverParse_unknown_fallback c10Plain (fun _ _ => none)
     (by decide) (by decide)⟩
